import Mathlib

/-!
Verification of the Broadlink-to-Tuya IR codec of hvac-manager
(`internal/database/tuya_codec.go` and `internal/database/converter.go`).

Bytes are modelled as `Nat` (every value written by the Go code fits in a
byte; the embedding mirrors the arithmetic the source performs on `int`
values before the final `byte(...)` casts, whose operands are proved or
guarded to be below 256 at each cast site).  Go slices become `List Nat`,
hex strings become `List Char`, and fallible functions return
`Option`/`Except`.  A Go `panic` is modelled as `Option.none`.

Loops that advance a cursor are embedded with an explicit fuel argument
that decreases by one per iteration; every wrapper supplies fuel that is
proved (or immediately seen) to dominate the number of iterations, so the
fuel-exhaustion branches are unreachable from the wrappers.  Fuel keeps
every definition structurally recursive and hence evaluable by `decide`.
-/

/-- `TuyaWindowSize` from tuya_codec.go: sliding window of the LZ scheme. -/
def TuyaWindowSize : Nat := 8192

/-- `TuyaMaxMatchLength` from tuya_codec.go: `256 + 9 = 265`. -/
def TuyaMaxMatchLength : Nat := 265

/-- The inner byte-comparison loop of `findBestMatch`: number of initial
positions `k < bound` with `data[pos+k] == data[comparePos+k]`, stopping at
the first mismatch (`for length < maxLength && data[pos+length] ==
data[comparePos+length]`). -/
def matchLen (data : List Nat) (comparePos pos : Nat) : Nat → Nat
  | 0 => 0
  | bound + 1 =>
    if data.getD pos 0 = data.getD comparePos 0 then
      matchLen data (comparePos + 1) (pos + 1) bound + 1
    else 0

/-- The distance loop of `findBestMatch`: candidates are distances
`1 .. dmax` in increasing order, and a candidate replaces the current best
only when strictly longer (`if length > bestLength`), so the smallest
distance wins ties.  `findBestMatchAux data pos maxLength d` is the state
after scanning distances `1 .. d`. -/
def findBestMatchAux (data : List Nat) (pos maxLength : Nat) : Nat → Nat × Nat
  | 0 => (0, 0)
  | d + 1 =>
    let prev := findBestMatchAux data pos maxLength d
    let length := matchLen data (pos - (d + 1)) pos maxLength
    if prev.1 < length then (length, d + 1) else prev

/-- `findBestMatch` from tuya_codec.go.  The Go loop bound
`pos - windowStart` with `windowStart = max (pos - TuyaWindowSize) 0` is
`min pos TuyaWindowSize`, and the per-candidate cap
(`maxLength = TuyaMaxMatchLength`, reduced to `len(data) - pos` when it
would overrun) is `min TuyaMaxMatchLength (data.length - pos)`. -/
def findBestMatch (data : List Nat) (pos : Nat) : Nat × Nat :=
  findBestMatchAux data pos (min TuyaMaxMatchLength (data.length - pos)) (min pos TuyaWindowSize)

/-- `emitLiteralBlock` from tuya_codec.go.  The Go code computes
`length := len(data) - 1` as an `int` and panics when `length < 0` (empty
chunk) or `length >= 32`; the panic is `none`.  Otherwise it writes the
header byte `length` followed by the data. -/
def emitLiteralBlock (data : List Nat) : Option (List Nat) :=
  if data.length = 0 ∨ 32 ≤ data.length - 1 then none
  else some ((data.length - 1) :: data)

/-- Fueled form of the chunking loop of `emitLiteralBlocks` (chunks of at
most 32 bytes).  Each iteration drops 32 elements, so `data.length` fuel
suffices; the fuel-0-with-data-left branch is unreachable from the
wrapper. -/
def emitLiteralBlocksAux : Nat → List Nat → Option (List Nat)
  | 0, data => if data.isEmpty then some [] else none
  | fuel + 1, data =>
    if data.isEmpty then some []
    else
      match emitLiteralBlock (data.take 32) with
      | none => none
      | some b =>
        match emitLiteralBlocksAux fuel (data.drop 32) with
        | none => none
        | some rest => some (b ++ rest)

/-- `emitLiteralBlocks` from tuya_codec.go. -/
def emitLiteralBlocks (data : List Nat) : Option (List Nat) :=
  emitLiteralBlocksAux data.length data

/-- `emitDistanceBlock` from tuya_codec.go, with each Go `panic` modelled
as `none`.  Go decrements `distance` and panics unless
`0 ≤ distance - 1 < 8192` (as `int`s: `distance = 0` or
`distance - 1 ≥ 8192` panic), subtracts 2 from `length` and panics when
the result is `≤ 0` (i.e. `length ≤ 2`), and in the extended encoding
panics when the stored length `length - 2` is `≥ 256`.  In the header
byte `length<<5 | distance>>8` the two fields occupy disjoint bits
(`distance>>8 < 32` is guaranteed by the range check), so `|` is `+`. -/
def emitDistanceBlock (length distance : Nat) : Option (List Nat) :=
  if distance = 0 ∨ TuyaWindowSize ≤ distance - 1 then none
  else if length ≤ 2 then none
  else if 7 ≤ length - 2 then
    if 256 ≤ length - 2 then none
    else some [7 * 32 + (distance - 1) / 256, (distance - 1) % 256, length - 2 - 7]
  else some [(length - 2) * 32 + (distance - 1) / 256, (distance - 1) % 256]

/-- Fueled form of the main loop of `compressTuya`.  One unit of fuel per
iteration; every iteration advances `pos` by at least 1, so
`data.length - pos` fuel suffices and the fuel-0 case coincides with the
loop-exit action (flush the pending literal run `data[blockStart:pos]`). -/
def compressAux (data : List Nat) : Nat → Nat → Nat → Option (List Nat)
  | 0, blockStart, pos => emitLiteralBlocks ((data.drop blockStart).take (pos - blockStart))
  | fuel + 1, blockStart, pos =>
    if pos < data.length then
      if 3 ≤ (findBestMatch data pos).1 then
        match emitLiteralBlocks ((data.drop blockStart).take (pos - blockStart)) with
        | none => none
        | some lits =>
          match emitDistanceBlock (findBestMatch data pos).1 (findBestMatch data pos).2 with
          | none => none
          | some tok =>
            match compressAux data fuel (pos + (findBestMatch data pos).1)
                (pos + (findBestMatch data pos).1) with
            | none => none
            | some rest => some (lits ++ tok ++ rest)
      else compressAux data fuel blockStart (pos + 1)
    else emitLiteralBlocks ((data.drop blockStart).take (pos - blockStart))

/-- `compressTuya` from tuya_codec.go (`none` = some `panic` fired). -/
def compressTuya (data : List Nat) : Option (List Nat) :=
  compressAux data data.length 0 0

/-- `packRawBytes` from tuya_codec.go: each 16-bit value as two bytes,
little-endian. -/
def packRawBytes (microseconds : List Nat) : List Nat :=
  microseconds.flatMap fun value => [value % 256, value / 256 % 256]

/-- `convertToMicroseconds` from tuya_codec.go.  The Go code computes
`int(math.Ceil(float64 d / BroadlinkUnit))` with
`BroadlinkUnit = 269.0/8192.0`.  `269/8192` has a 9-bit numerator and a
power-of-two denominator, so it is exactly representable in float64 and
the computed quotient is `d*8192/269` up to one rounding of relative size
`2⁻⁵³`; the exact quotient is at distance at least `1/269` from every
integer it is not equal to, so for every `d < 2⁴⁰` (far above the
16-bit-bounded durations the parser can produce) the float64 `Ceil` agrees
with the exact rational ceiling, embedded here as the integer division
`(8192*d + 268) / 269`.  Values `≥ 65535` are dropped (`uint16` limit). -/
def convertToMicroseconds (durations : List Nat) : List Nat :=
  match durations with
  | [] => []
  | d :: rest =>
    let microseconds := (8192 * d + 268) / 269
    if microseconds < 65535 then microseconds :: convertToMicroseconds rest
    else convertToMicroseconds rest

/-- Byte-by-byte self-referential window copy of the spec's Decompressor:
append `count` bytes, each read `distance` positions back from the current
end of the output, so that source and destination may overlap. -/
def lzExtend (output : List Nat) (distance : Nat) : Nat → List Nat
  | 0 => output
  | count + 1 =>
    lzExtend (output ++ [output.getD (output.length - distance) 0]) distance count

/-- Modelled from the spec: the repository contains no Decompressor (the
markdown sketch in the docs uses a different, incompatible token layout and
is labelled external reference material), so this is the Decompressor of
spec section 4.5.  A header byte is a literal block exactly when its 3-bit
length field (bits 5 to 7) is zero, since every match token stores
`true_length - 2 ≥ 1` there; a literal copies `low5bits + 1` bytes
verbatim, a match reads the low distance byte (and an extra length byte
when the field equals 7) and copies `length` bytes from `distance` back,
byte by byte with overlap.  `TruncatedStream` when a token needs more
input than remains; `InvalidBackreference` when `distance` exceeds the
output produced so far. -/
def decompressLoop (input output : List Nat) : Except String (List Nat) :=
  match input with
  | [] => .ok output
  | header :: rest =>
    if header / 32 = 0 then
      let n := header % 32 + 1
      if rest.length < n then .error ("TruncatedStream")
      else decompressLoop (rest.drop n) (output ++ rest.take n)
    else
      match rest with
      | [] => .error ("TruncatedStream")
      | b1 :: rest1 =>
        if header / 32 = 7 then
          match rest1 with
          | [] => .error ("TruncatedStream")
          | b2 :: rest2 =>
            let distance := header % 32 * 256 + b1 + 1
            let length := 7 + b2 + 2
            if output.length < distance then .error ("InvalidBackreference")
            else decompressLoop rest2 (lzExtend output distance length)
        else
          let distance := header % 32 * 256 + b1 + 1
          let length := header / 32 + 2
          if output.length < distance then .error ("InvalidBackreference")
          else decompressLoop rest1 (lzExtend output distance length)
  termination_by input.length
  decreasing_by
  · simp only [List.length_cons, List.length_drop]; omega
  · simp_all only [List.length_cons]; omega
  · simp only [List.length_cons]; omega

/-- Modelled from the spec: whole-stream decompression starting from an
empty output window. -/
def decompressTuya (compressed : List Nat) : Except String (List Nat) :=
  decompressLoop compressed []

/-- Value of a hex digit, `none` for a non-hex character. -/
def hexDigit (c : Char) : Option Nat :=
  if '0' ≤ c ∧ c ≤ '9' then some (c.toNat - '0'.toNat)
  else if 'a' ≤ c ∧ c ≤ 'f' then some (c.toNat - 'a'.toNat + 10)
  else if 'A' ≤ c ∧ c ≤ 'F' then some (c.toNat - 'A'.toNat + 10)
  else none

/-- Accumulate the value of a list of hex digits (most significant first). -/
def hexVal (s : List Char) : Nat :=
  s.foldl (fun acc c => acc * 16 + (hexDigit c).getD 0) 0

/-- `parseHexToInt` from tuya_codec.go: `fmt.Sscanf(hexStr, "%x", &val)`
parses a maximal hex-digit prefix and errors when the string does not
start with a hex digit.  The codec only ever passes 2- or 4-character
substrings of a hex dump, so prefixes, signs and overflow never arise. -/
def parseHexToInt (hexStr : List Char) : Except String Nat :=
  match hexStr with
  | [] => .error ("invalid hex value")
  | c :: _ =>
    match hexDigit c with
    | none => .error ("invalid hex value")
    | some _ => .ok (hexVal (hexStr.takeWhile fun d => (hexDigit d).isSome))

/-- Fueled form of the scanning loop of `parseBroadlinkDurations`
(`for i < length*2+8`, cursor `i` in hex characters, advancing by 2 per
plain byte and by 6 per `00`-escaped 16-bit value).  Each iteration
consumes at least one unit of fuel, so `limit` fuel suffices.  The Go
loop `break`s (returning the durations accumulated so far, with no error)
when fewer than 2 hex characters remain, and errors only when an escape
marker has fewer than 4 further hex characters after it. -/
def parseDurAux (hexString : List Char) (limit : Nat) : Nat → Nat → Except String (List Nat)
  | 0, _ => .ok []
  | fuel + 1, i =>
    if i < limit then
      if hexString.length < i + 2 then .ok []
      else if (hexString.drop i).take 2 = ['0', '0'] then
        if hexString.length < i + 6 then .error ("truncated extended duration")
        else
          match parseHexToInt ((hexString.drop (i + 2)).take 4) with
          | .error e => .error e
          | .ok val =>
            match parseDurAux hexString limit fuel (i + 6) with
            | .error e => .error e
            | .ok rest => .ok (val :: rest)
      else
        match parseHexToInt ((hexString.drop i).take 2) with
        | .error e => .error e
        | .ok val =>
          match parseDurAux hexString limit fuel (i + 2) with
          | .error e => .error e
          | .ok rest => .ok (val :: rest)
    else .ok []

/-- `parseBroadlinkDurations` from tuya_codec.go, over the hex-character
dump of the payload.  The 16-bit payload length is read little-endian from
hex characters 4..8 (`hexString[6:8] + hexString[4:6]`), and the scan runs
from character 8 up to `length*2 + 8`. -/
def parseBroadlinkDurations (hexString : List Char) : Except String (List Nat) :=
  if hexString.length < 8 then .error ("invalid Broadlink format: too short")
  else
    match parseHexToInt ((hexString.drop 6).take 2 ++ (hexString.drop 4).take 2) with
    | .error _ => .error ("invalid payload length")
    | .ok length => parseDurAux hexString (length * 2 + 8) (length * 2 + 8) 8

/-- A sequence of 2-hex-character values none of which is the escape
marker `00`: the shape of payload the scanning loop of
`parseBroadlinkDurations` traverses at one value per iteration, neither
stopping nor escaping.  Used to quantify the escape-truncation error case
of the parser over every payload that reaches the escape. -/
def plainHexPairs : List Char → Bool
  | [] => true
  | c1 :: c2 :: rest =>
    (hexDigit c1).isSome && (hexDigit c2).isSome && !(c1 == '0' && c2 == '0') &&
      plainHexPairs rest
  | _ => false

/-- The standard base64 alphabet used by Go's `encoding/base64.StdEncoding`. -/
def base64Chars : List Char :=
  ("ABCDEFGHIJKLMNOPQRSTUVWXYZabcdefghijklmnopqrstuvwxyz0123456789+/").toList

/-- Character for a 6-bit group. -/
def b64Char (n : Nat) : Char := base64Chars.getD n '?'

/-- Standard base64 encoding of a byte list, with `=` padding and no line
wrapping, as Go's `base64.StdEncoding.EncodeToString`. -/
def encodeBase64 : List Nat → List Char
  | [] => []
  | [b0] => [b64Char (b0 / 4), b64Char (b0 % 4 * 16), '=', '=']
  | [b0, b1] => [b64Char (b0 / 4), b64Char (b0 % 4 * 16 + b1 / 16), b64Char (b1 % 16 * 4), '=']
  | b0 :: b1 :: b2 :: rest =>
    b64Char (b0 / 4) :: b64Char (b0 % 4 * 16 + b1 / 16) ::
      b64Char (b1 % 16 * 4 + b2 / 64) :: b64Char (b2 % 64) :: encodeBase64 rest

/-- `encodeTuyaBase64` from tuya_codec.go. -/
def encodeTuyaBase64 (compressed : List Nat) : String :=
  String.mk (encodeBase64 compressed)

/-- Index of a character in the base64 alphabet (Go rejects characters
outside the alphabet). -/
def b64Index (c : Char) : Option Nat := base64Chars.indexOf? c

/-- Modelled from the Go standard library: `base64.StdEncoding.DecodeString`
on the paths the codec exercises — input length must be a multiple of 4,
`=` padding only in the final quantum, every other character from the
alphabet.  (Go additionally rejects non-canonical trailing bits; no claim
depends on that refinement.) -/
def decodeBase64 : List Char → Except String (List Nat)
  | [] => .ok []
  | c0 :: c1 :: c2 :: c3 :: rest =>
    match b64Index c0, b64Index c1 with
    | some v0, some v1 =>
      if c2 = '=' ∧ c3 = '=' ∧ rest = [] then .ok [v0 * 4 + v1 / 16]
      else if c3 = '=' ∧ rest = [] then
        match b64Index c2 with
        | some v2 => .ok [v0 * 4 + v1 / 16, v1 % 16 * 16 + v2 / 4]
        | none => .error ("illegal base64 data")
      else
        match b64Index c2, b64Index c3 with
        | some v2, some v3 =>
          match decodeBase64 rest with
          | .ok tail =>
            .ok ((v0 * 4 + v1 / 16) :: (v1 % 16 * 16 + v2 / 4) :: (v2 % 4 * 64 + v3) :: tail)
          | .error e => .error e
        | _, _ => .error ("illegal base64 data")
    | _, _ => .error ("illegal base64 data")
  | _ => .error ("illegal base64 data")

/-- Lowercase hex character of a value below 16. -/
def hexChar (n : Nat) : Char := ("0123456789abcdef").toList.getD n '?'

/-- `fmt.Sprintf("%x", decoded)` on a byte slice: two lowercase hex
characters per byte. -/
def bytesToHex (bytes : List Nat) : List Char :=
  bytes.flatMap fun b => [hexChar (b / 16 % 16), hexChar (b % 16)]

/-- The ASCII white-space characters trimmed by Go's `strings.TrimSpace`
(`unicode.IsSpace` also covers a few non-ASCII code points that cannot
occur in base64 input). -/
def isGoSpace (c : Char) : Bool :=
  c.toNat = 32 || c.toNat = 9 || c.toNat = 10 || c.toNat = 13 || c.toNat = 11 || c.toNat = 12

/-- `strings.TrimSpace`: drop white space from both ends. -/
def trimSpace (s : List Char) : List Char :=
  ((s.dropWhile isGoSpace).reverse.dropWhile isGoSpace).reverse

/-- `ConvertBroadlinkToTuya` from converter.go: trim, reject empty input,
base64-decode, hex-dump, parse durations, convert and filter, pack,
compress, re-encode.  The compression step has no error return in Go — a
`panic` there aborts the process — so the `none` case is mapped to a
distinguished error value here merely to keep the model total. -/
def ConvertBroadlinkToTuya (broadlinkCode : List Char) : Except String String :=
  let trimmed := broadlinkCode |> trimSpace
  if trimmed = [] then .error ("empty Broadlink code")
  else
    match decodeBase64 trimmed with
    | .error _ => .error ("invalid base64 encoding")
    | .ok decoded =>
      match parseBroadlinkDurations (bytesToHex decoded) with
      | .error e => .error e
      | .ok durations =>
        if durations = [] then .error ("no IR durations found in Broadlink code")
        else
          let microseconds := convertToMicroseconds durations
          if microseconds = [] then .error ("all durations filtered out")
          else
            match compressTuya (packRawBytes microseconds) with
            | none => .error ("panic: encoder invariant violated")
            | some compressed => .ok (encodeTuyaBase64 compressed)

/-! ### Properties of the match search -/

theorem matchLen_le (data : List Nat) (i j b : Nat) : matchLen data i j b ≤ b := by
  induction b generalizing i j with
  | zero => simp [matchLen]
  | succ b ih =>
    simp only [matchLen]
    split
    · exact Nat.succ_le_succ (ih _ _)
    · exact Nat.zero_le _

theorem matchLen_eq (data : List Nat) (i j b : Nat) :
    ∀ k, k < matchLen data i j b → data.getD (j + k) 0 = data.getD (i + k) 0 := by
  induction b generalizing i j with
  | zero => simp [matchLen]
  | succ b ih =>
    intro k hk
    simp only [matchLen] at hk
    split at hk
    · match k with
      | 0 => simpa using (by assumption : data.getD j 0 = data.getD i 0)
      | k + 1 =>
        have := ih (i + 1) (j + 1) k (by omega)
        simpa [Nat.add_assoc, Nat.add_comm 1 k] using this
    · omega

theorem findBestMatchAux_fst_le (data : List Nat) (pos M : Nat) :
    ∀ d, (findBestMatchAux data pos M d).1 ≤ M := by
  intro d
  induction d with
  | zero => simp [findBestMatchAux]
  | succ d ih =>
    simp only [findBestMatchAux]
    split
    · exact matchLen_le data _ pos M
    · exact ih

theorem findBestMatchAux_mono (data : List Nat) (pos M d : Nat) :
    (findBestMatchAux data pos M d).1 ≤ (findBestMatchAux data pos M (d + 1)).1 := by
  simp only [findBestMatchAux]
  split
  · omega
  · exact Nat.le_refl _

theorem findBestMatchAux_ge (data : List Nat) (pos M : Nat) :
    ∀ d d', 1 ≤ d' → d' ≤ d →
      matchLen data (pos - d') pos M ≤ (findBestMatchAux data pos M d).1 := by
  intro d
  induction d with
  | zero => omega
  | succ d ih =>
    intro d' h1 h2
    rcases Nat.lt_or_ge d' (d + 1) with h | h
    · exact Nat.le_trans (ih d' h1 (by omega)) (findBestMatchAux_mono data pos M d)
    · have hd' : d' = d + 1 := by omega
      subst hd'
      simp only [findBestMatchAux]
      by_cases h : (findBestMatchAux data pos M d).1 < matchLen data (pos - (d + 1)) pos M
      · rw [if_pos h]
      · rw [if_neg h]
        omega

theorem findBestMatchAux_pos_spec (data : List Nat) (pos M : Nat) :
    ∀ d, 0 < (findBestMatchAux data pos M d).1 →
      1 ≤ (findBestMatchAux data pos M d).2 ∧ (findBestMatchAux data pos M d).2 ≤ d ∧
      (findBestMatchAux data pos M d).1 =
        matchLen data (pos - (findBestMatchAux data pos M d).2) pos M := by
  intro d
  induction d with
  | zero => simp [findBestMatchAux]
  | succ d ih =>
    intro hpos
    simp only [findBestMatchAux] at hpos ⊢
    by_cases h : (findBestMatchAux data pos M d).1 < matchLen data (pos - (d + 1)) pos M
    · rw [if_pos h]
      exact ⟨by omega, Nat.le_refl _, rfl⟩
    · rw [if_neg h] at hpos ⊢
      have := ih hpos
      exact ⟨this.1, by omega, this.2.2⟩

theorem findBestMatchAux_least (data : List Nat) (pos M : Nat) :
    ∀ d d', 1 ≤ d' → d' < (findBestMatchAux data pos M d).2 →
      matchLen data (pos - d') pos M < (findBestMatchAux data pos M d).1 := by
  intro d
  induction d with
  | zero => simp [findBestMatchAux]
  | succ d ih =>
    intro d' h1 h2
    simp only [findBestMatchAux] at h2 ⊢
    by_cases h : (findBestMatchAux data pos M d).1 < matchLen data (pos - (d + 1)) pos M
    · rw [if_pos h] at h2 ⊢
      exact Nat.lt_of_le_of_lt (findBestMatchAux_ge data pos M d d' h1 (by simp at h2; omega)) h
    · rw [if_neg h] at h2 ⊢
      exact ih d' h1 h2

/-! ### The spec Decompressor inverts every token the compressor emits -/

theorem lzExtend_take (data : List Nat) :
    ∀ l pos bd, 1 ≤ bd → bd ≤ pos → pos + l ≤ data.length →
      (∀ j, j < l → data.getD (pos - bd + j) 0 = data.getD (pos + j) 0) →
      lzExtend (data.take pos) bd l = data.take (pos + l) := by
  intro l
  induction l with
  | zero => intro pos bd _ _ _ _; simp [lzExtend]
  | succ l ih =>
    intro pos bd h1 h2 h3 hm
    simp only [lzExtend]
    have hlen : (data.take pos).length = pos := by
      rw [List.length_take]; omega
    have hidx : (data.take pos).getD (pos - bd) 0 = data.getD (pos - bd) 0 := by
      rw [List.getD_eq_getElem?_getD, List.getD_eq_getElem?_getD, List.getElem?_take,
        if_pos (by omega : pos - bd < pos)]
    have hbyte : data.getD (pos - bd) 0 = data.getD pos 0 := by
      simpa using hm 0 (by omega)
    have happend : data.take pos ++ [data.getD pos 0] = data.take (pos + 1) := by
      rw [List.take_succ, List.getElem?_eq_getElem (show pos < data.length by omega)]
      simp [List.getD_eq_getElem?_getD, List.getElem?_eq_getElem (show pos < data.length by omega)]
    rw [hlen, hidx, hbyte, happend]
    have hshift : pos + (l + 1) = pos + 1 + l := by omega
    rw [hshift]
    apply ih (pos + 1) bd h1 (by omega) (by omega)
    intro j hj
    have := hm (j + 1) (by omega)
    have e1 : pos + 1 - bd + j = pos - bd + (j + 1) := by omega
    have e2 : pos + 1 + j = pos + (j + 1) := by omega
    rw [e1, e2]; exact this

theorem decompressLoop_literal (chunk k out : List Nat) (h1 : chunk ≠ []) (h2 : chunk.length ≤ 32) :
    decompressLoop (((chunk.length - 1) :: chunk) ++ k) out = decompressLoop k (out ++ chunk) := by
  have hpos : 1 ≤ chunk.length := List.length_pos.mpr h1
  have hd : (chunk.length - 1) / 32 = 0 := Nat.div_eq_of_lt (by omega)
  have hmod : (chunk.length - 1) % 32 = chunk.length - 1 := Nat.mod_eq_of_lt (by omega)
  rw [List.cons_append, decompressLoop.eq_def]
  simp only []
  rw [if_pos hd, hmod]
  have hn : chunk.length - 1 + 1 = chunk.length := by omega
  rw [hn]
  rw [if_neg (by rw [List.length_append]; omega)]
  rw [List.take_left, List.drop_left]

theorem decompressLoop_match (l d : Nat) (tok k out : List Nat)
    (he : emitDistanceBlock l d = some tok) (hout : d ≤ out.length) :
    decompressLoop (tok ++ k) out = decompressLoop k (lzExtend out d l) := by
  unfold emitDistanceBlock at he
  by_cases h1 : d = 0 ∨ TuyaWindowSize ≤ d - 1
  · rw [if_pos h1] at he; exact absurd he (by simp)
  rw [if_neg h1] at he
  rw [TuyaWindowSize] at h1
  have hd1 : 1 ≤ d := by omega
  have hd2 : d - 1 < 8192 := by omega
  by_cases h2 : l ≤ 2
  · rw [if_pos h2] at he; exact absurd he (by simp)
  rw [if_neg h2] at he
  by_cases h3 : 7 ≤ l - 2
  · rw [if_pos h3] at he
    by_cases h4 : 256 ≤ l - 2
    · rw [if_pos h4] at he; exact absurd he (by simp)
    rw [if_neg h4] at he
    have htok : tok = [7 * 32 + (d - 1) / 256, (d - 1) % 256, l - 2 - 7] :=
      (Option.some.inj he).symm
    subst htok
    rw [List.cons_append, List.cons_append, List.cons_append, decompressLoop.eq_def]
    simp only []
    rw [if_neg (by omega)]
    rw [if_pos (by omega : (7 * 32 + (d - 1) / 256) / 32 = 7)]
    rw [show (7 * 32 + (d - 1) / 256) % 32 * 256 + (d - 1) % 256 + 1 = d by omega]
    rw [if_neg (by omega)]
    rw [show 7 + (l - 2 - 7) + 2 = l by omega, List.nil_append]
  · rw [if_neg h3] at he
    have htok : tok = [(l - 2) * 32 + (d - 1) / 256, (d - 1) % 256] :=
      (Option.some.inj he).symm
    subst htok
    rw [List.cons_append, List.cons_append, decompressLoop.eq_def]
    simp only []
    rw [if_neg (by omega)]
    rw [if_neg (by omega : ¬ ((l - 2) * 32 + (d - 1) / 256) / 32 = 7)]
    rw [show ((l - 2) * 32 + (d - 1) / 256) % 32 * 256 + (d - 1) % 256 + 1 = d by omega]
    rw [if_neg (by omega)]
    rw [show ((l - 2) * 32 + (d - 1) / 256) / 32 + 2 = l by omega, List.nil_append]

theorem emitLiteralBlocksAux_irrel :
    ∀ f1 f2 data, data.length ≤ f1 → data.length ≤ f2 →
      emitLiteralBlocksAux f1 data = emitLiteralBlocksAux f2 data := by
  intro f1
  induction f1 with
  | zero =>
    intro f2 data h1 h2
    have : data = [] := List.length_eq_zero.mp (by omega)
    subst this
    cases f2 <;> simp [emitLiteralBlocksAux]
  | succ f1 ih =>
    intro f2 data h1 h2
    by_cases hne : data = []
    · subst hne
      cases f2 <;> simp [emitLiteralBlocksAux]
    · have hlen : 1 ≤ data.length := List.length_pos.mpr hne
      match f2 with
      | 0 => omega
      | f2 + 1 =>
        simp only [emitLiteralBlocksAux]
        rw [ih f2 (data.drop 32) (by rw [List.length_drop]; omega)
          (by rw [List.length_drop]; omega)]

theorem emitLiteralBlocks_decompress_aux :
    ∀ n data bs, data.length ≤ n → emitLiteralBlocks data = some bs →
      ∀ k out, decompressLoop (bs ++ k) out = decompressLoop k (out ++ data) := by
  intro n
  induction n with
  | zero =>
    intro data bs h1 he k out
    have hdata : data = [] := List.length_eq_zero.mp (by omega)
    subst hdata
    simp only [emitLiteralBlocks, emitLiteralBlocksAux, List.length_nil, List.isEmpty_nil,
      if_true] at he
    have : bs = [] := (Option.some.inj he).symm
    subst this
    simp
  | succ n ih =>
    intro data bs h1 he k out
    by_cases hne : data = []
    · subst hne
      simp only [emitLiteralBlocks, emitLiteralBlocksAux, List.length_nil, List.isEmpty_nil,
        if_true] at he
      have : bs = [] := (Option.some.inj he).symm
      subst this
      simp
    · have hlen : 1 ≤ data.length := List.length_pos.mpr hne
      obtain ⟨m, hm⟩ : ∃ m, data.length = m + 1 := ⟨data.length - 1, by omega⟩
      rw [emitLiteralBlocks, hm] at he
      simp only [emitLiteralBlocksAux] at he
      rw [if_neg (by simp [hne])] at he
      cases hblock : emitLiteralBlock (data.take 32) with
      | none => rw [hblock] at he; cases he
      | some b =>
        rw [hblock] at he
        cases hrest : emitLiteralBlocksAux m (data.drop 32) with
        | none => rw [hrest] at he; cases he
        | some rest =>
          rw [hrest] at he
          have hbs : bs = b ++ rest := (Option.some.inj he).symm
          subst hbs
          unfold emitLiteralBlock at hblock
          by_cases hcond : (data.take 32).length = 0 ∨ 32 ≤ (data.take 32).length - 1
          · rw [if_pos hcond] at hblock; cases hblock
          rw [if_neg hcond] at hblock
          have hb : b = ((data.take 32).length - 1) :: data.take 32 := (Option.some.inj hblock).symm
          subst hb
          have htl : (data.take 32).length = min 32 data.length := by
            rw [List.length_take]
          have h32 : (data.take 32).length ≤ 32 := by omega
          have htne : data.take 32 ≠ [] := by
            intro h
            rw [h] at htl
            simp at htl
            omega
          have hrest' : emitLiteralBlocks (data.drop 32) = some rest := by
            rw [emitLiteralBlocks,
              emitLiteralBlocksAux_irrel (data.drop 32).length m (data.drop 32) (Nat.le_refl _)
                (by rw [List.length_drop]; omega)]
            exact hrest
          rw [List.append_assoc]
          rw [decompressLoop_literal (data.take 32) (rest ++ k) out htne h32]
          rw [ih (data.drop 32) rest (by rw [List.length_drop]; omega) hrest' k
            (out ++ data.take 32)]
          rw [List.append_assoc, List.take_append_drop]

theorem emitLiteralBlocks_decomp (data bs : List Nat)
    (he : emitLiteralBlocks data = some bs) :
    ∀ k out, decompressLoop (bs ++ k) out = decompressLoop k (out ++ data) :=
  emitLiteralBlocks_decompress_aux data.length data bs (Nat.le_refl _) he

theorem findBestMatch_fst_le (data : List Nat) (pos : Nat) :
    (findBestMatch data pos).1 ≤ min TuyaMaxMatchLength (data.length - pos) :=
  findBestMatchAux_fst_le data pos _ _

theorem findBestMatch_spec (data : List Nat) (pos : Nat) (h : 0 < (findBestMatch data pos).1) :
    1 ≤ (findBestMatch data pos).2 ∧ (findBestMatch data pos).2 ≤ min pos TuyaWindowSize ∧
    (findBestMatch data pos).1 =
      matchLen data (pos - (findBestMatch data pos).2) pos
        (min TuyaMaxMatchLength (data.length - pos)) :=
  findBestMatchAux_pos_spec data pos _ _ h

theorem compress_flush (data : List Nat) (blockStart : Nat) (c : List Nat)
    (hbs : blockStart ≤ data.length)
    (hc : emitLiteralBlocks ((data.drop blockStart).take (data.length - blockStart)) = some c) :
    ∀ k, decompressLoop (c ++ k) (data.take blockStart) = decompressLoop k data := by
  intro k
  rw [emitLiteralBlocks_decomp _ _ hc k (data.take blockStart)]
  congr 1
  rw [← List.take_add, show blockStart + (data.length - blockStart) = data.length by omega,
    List.take_length]

theorem compressAux_decompress (data : List Nat) :
    ∀ fuel blockStart pos c, data.length ≤ fuel + pos → blockStart ≤ pos →
      pos ≤ data.length → compressAux data fuel blockStart pos = some c →
      ∀ k, decompressLoop (c ++ k) (data.take blockStart) = decompressLoop k data := by
  intro fuel
  induction fuel with
  | zero =>
    intro blockStart pos c h1 h2 h3 hc k
    have hpos : pos = data.length := by omega
    subst hpos
    simp only [compressAux] at hc
    exact compress_flush data blockStart c h2 hc k
  | succ fuel ih =>
    intro blockStart pos c h1 h2 h3 hc k
    simp only [compressAux] at hc
    by_cases hlt : pos < data.length
    · rw [if_pos hlt] at hc
      by_cases h3m : 3 ≤ (findBestMatch data pos).1
      · rw [if_pos h3m] at hc
        cases hlits : emitLiteralBlocks ((data.drop blockStart).take (pos - blockStart)) with
        | none => rw [hlits] at hc; cases hc
        | some lits =>
          rw [hlits] at hc
          cases htok : emitDistanceBlock (findBestMatch data pos).1 (findBestMatch data pos).2 with
          | none => rw [htok] at hc; cases hc
          | some tok =>
            rw [htok] at hc
            cases hrest : compressAux data fuel (pos + (findBestMatch data pos).1)
                (pos + (findBestMatch data pos).1) with
            | none => rw [hrest] at hc; cases hc
            | some rest =>
              rw [hrest] at hc
              have hc' : c = lits ++ tok ++ rest := (Option.some.inj hc).symm
              subst hc'
              have hble := findBestMatch_fst_le data pos
              have hspec := findBestMatch_spec data pos (by omega)
              have hbd1 : 1 ≤ (findBestMatch data pos).2 := hspec.1
              have hbdpos : (findBestMatch data pos).2 ≤ pos :=
                le_trans hspec.2.1 (Nat.min_le_left _ _)
              have hpblen : pos + (findBestMatch data pos).1 ≤ data.length := by
                have := le_trans hble (Nat.min_le_right _ _)
                omega
              have hprop : ∀ j, j < (findBestMatch data pos).1 →
                  data.getD (pos - (findBestMatch data pos).2 + j) 0 = data.getD (pos + j) 0 := by
                intro j hj
                exact (matchLen_eq data (pos - (findBestMatch data pos).2) pos
                  (min TuyaMaxMatchLength (data.length - pos)) j (hspec.2.2 ▸ hj)).symm
              simp only [List.append_assoc]
              rw [emitLiteralBlocks_decomp _ _ hlits (tok ++ (rest ++ k)) (data.take blockStart)]
              have hslice : data.take blockStart ++ (data.drop blockStart).take (pos - blockStart)
                  = data.take pos := by
                rw [← List.take_add, show blockStart + (pos - blockStart) = pos by omega]
              rw [hslice]
              rw [decompressLoop_match _ _ tok (rest ++ k) (data.take pos) htok
                (by rw [List.length_take, Nat.min_eq_left h3]; exact hbdpos)]
              rw [lzExtend_take data (findBestMatch data pos).1 pos (findBestMatch data pos).2
                hbd1 hbdpos hpblen hprop]
              exact ih (pos + (findBestMatch data pos).1) (pos + (findBestMatch data pos).1) rest
                (by omega) (Nat.le_refl _) hpblen hrest k
      · rw [if_neg h3m] at hc
        exact ih blockStart (pos + 1) c (by omega) (by omega) (by omega) hc k
    · rw [if_neg hlt] at hc
      have hpos : pos = data.length := by omega
      subst hpos
      exact compress_flush data blockStart c h2 hc k

theorem compressTuya_decompress (data c : List Nat) (hc : compressTuya data = some c) :
    decompressTuya c = Except.ok data := by
  have h := compressAux_decompress data data.length 0 0 c (by omega) (Nat.le_refl 0)
    (Nat.zero_le _) hc []
  rw [List.append_nil, List.take_zero] at h
  rw [decompressTuya, h, decompressLoop.eq_def]

theorem convertToMicroseconds_filter_map (durations : List Nat) :
    convertToMicroseconds durations =
      (durations.map fun d => (8192 * d + 268) / 269).filter fun m => m < 65535 := by
  induction durations with
  | nil => simp [convertToMicroseconds]
  | cons d rest ih =>
    simp only [convertToMicroseconds, List.map_cons, List.filter_cons]
    by_cases h : (8192 * d + 268) / 269 < 65535
    · rw [if_pos h, ih, if_pos (by simpa using h)]
    · rw [if_neg h, ih, if_neg (by simpa using h)]

theorem convCeil_exact (r : Nat) :
    (((8192 * r + 268) / 269 : Nat) : ℤ) = ⌈(r : ℚ) / (269 / 8192)⌉ := by
  have hdm := Nat.div_add_mod (8192 * r + 268) 269
  have hlt : (8192 * r + 268) % 269 < 269 := Nat.mod_lt _ (by omega)
  set q := (8192 * r + 268) / 269 with hq
  have h1 : 8192 * r ≤ 269 * q := by omega
  have h2 : 269 * q ≤ 8192 * r + 268 := by omega
  have hq1 : (8192 * (r : ℚ)) ≤ 269 * (q : ℚ) := by exact_mod_cast h1
  have hq2 : 269 * (q : ℚ) ≤ 8192 * (r : ℚ) + 268 := by exact_mod_cast h2
  have hrw : (r : ℚ) / (269 / 8192) = (8192 * r : ℚ) / 269 := by
    field_simp
    ring
  rw [hrw]
  symm
  rw [Int.ceil_eq_iff]
  constructor
  · rw [lt_div_iff₀ (by norm_num : (0 : ℚ) < 269)]
    push_cast
    linarith
  · rw [div_le_iff₀ (by norm_num : (0 : ℚ) < 269)]
    push_cast
    linarith

theorem dropWhile_head_false {p : Char → Bool} :
    ∀ l : List Char, (∀ c, l.head? = some c → p c = false) → l.dropWhile p = l := by
  intro l h
  cases l with
  | nil => rfl
  | cons c t =>
    have := h c rfl
    simp [List.dropWhile, this]

theorem dropWhile_head?_false {p : Char → Bool} :
    ∀ l : List Char, ∀ c, (l.dropWhile p).head? = some c → p c = false := by
  intro l
  induction l with
  | nil => simp [List.dropWhile]
  | cons a t ih =>
    intro c hc
    by_cases hp : p a
    · rw [List.dropWhile_cons, if_pos hp] at hc
      exact ih c hc
    · rw [List.dropWhile_cons, if_neg hp] at hc
      simp at hc
      subst hc
      simpa using hp

theorem trimSpace_head?_false :
    ∀ l : List Char, ∀ c, (trimSpace l).head? = some c → isGoSpace c = false := by
  intro l c hc
  rw [trimSpace] at hc
  set u := l.dropWhile isGoSpace with hu
  set v := u.reverse.dropWhile isGoSpace with hv
  have hsplit : u.reverse = u.reverse.takeWhile isGoSpace ++ v :=
    (List.takeWhile_append_dropWhile _ _).symm
  have hu2 : u = v.reverse ++ (u.reverse.takeWhile isGoSpace).reverse := by
    have := congrArg List.reverse hsplit
    simpa using this
  have hvne : v.reverse ≠ [] := by
    intro h
    rw [h] at hc
    simp at hc
  have hhead : u.head? = some c := by
    rw [hu2, List.head?_append]
    rw [Option.or_of_isSome]
    · exact hc
    · rw [hc]; rfl
  exact dropWhile_head?_false l c hhead

theorem trimSpace_idem (l : List Char) : trimSpace (trimSpace l) = trimSpace l := by
  have h1 : (trimSpace l).dropWhile isGoSpace = trimSpace l :=
    dropWhile_head_false _ (trimSpace_head?_false l)
  rw [trimSpace, h1]
  rw [show (trimSpace l).reverse = (l.dropWhile isGoSpace).reverse.dropWhile isGoSpace by
    rw [trimSpace, List.reverse_reverse]]
  rw [dropWhile_head_false _ (dropWhile_head?_false (l.dropWhile isGoSpace).reverse)]
  rfl

theorem trimSpace_all_space (l : List Char) (h : ∀ c ∈ l, isGoSpace c = true) :
    trimSpace l = [] := by
  rw [trimSpace, List.dropWhile_eq_nil_iff.mpr h]
  rfl

/-! ### The scanning loop of the duration parser -/

/-- At any scan state inside the declared limit where the next two hex
characters are the escape marker `00` but fewer than four further hex
characters (two bytes) remain, the loop errors. -/
theorem parseDurAux_escape_truncated (s : List Char) (limit fuel i : Nat)
    (h1 : i < limit) (h2 : i + 2 ≤ s.length) (h3 : (s.drop i).take 2 = ['0', '0'])
    (h4 : s.length < i + 6) :
    parseDurAux s limit (fuel + 1) i = .error ("truncated extended duration") := by
  simp only [parseDurAux]
  rw [if_pos h1, if_neg (by omega), if_pos h3, if_pos h4]

/-- At any scan state inside the declared limit where fewer than two hex
characters remain, the loop stops without error: no more values are
produced and the values already parsed (consed on by the enclosing
recursion) are returned as they are. -/
theorem parseDurAux_break (s : List Char) (limit fuel i : Nat)
    (h1 : i < limit) (h2 : s.length < i + 2) :
    parseDurAux s limit (fuel + 1) i = .ok [] := by
  simp only [parseDurAux]
  rw [if_pos h1, if_pos h2]

/-- The loop walks over any prefix of plain (non-escape) values and then
errors on a truncated escape:  if from cursor `i` the remaining input is
`pre ++ 00 ++ tail` with `pre` plain pairs, at most three hex characters
of `tail`, the escape inside the declared limit and enough fuel, the
result is the truncated-extended-duration error. -/
theorem parseDurAux_plain_prefix_truncated :
    ∀ n pre, pre.length ≤ n → plainHexPairs pre = true →
      ∀ (s : List Char) (limit fuel i : Nat) (tail : List Char),
        s.drop i = pre ++ '0' :: '0' :: tail → tail.length ≤ 3 →
        i + pre.length < limit → pre.length + 1 ≤ fuel →
        parseDurAux s limit fuel i = .error ("truncated extended duration") := by
  intro n
  induction n with
  | zero =>
    intro pre hlen hpre s limit fuel i tail hdrop htail hlim hfuel
    have hpre0 : pre = [] := List.length_eq_zero.mp (by omega)
    subst hpre0
    obtain ⟨f, rfl⟩ : ∃ f, fuel = f + 1 := ⟨fuel - 1, by omega⟩
    have hslen : s.length - i = 2 + tail.length := by
      have := congrArg List.length hdrop
      simp [List.length_drop] at this
      omega
    have hile : i ≤ s.length := by omega
    apply parseDurAux_escape_truncated
    · simpa using hlim
    · omega
    · rw [hdrop]; rfl
    · omega
  | succ n ih =>
    intro pre hlen hpre s limit fuel i tail hdrop htail hlim hfuel
    cases pre with
    | nil => exact ih [] (by simp) hpre s limit fuel i tail hdrop htail hlim hfuel
    | cons c1 pre' =>
      cases pre' with
      | nil => simp [plainHexPairs] at hpre
      | cons c2 rest =>
        simp only [plainHexPairs, Bool.and_eq_true, Bool.not_eq_true'] at hpre
        obtain ⟨⟨⟨hx1, hx2⟩, hne⟩, hrest⟩ := hpre
        have hslen : s.length - i = rest.length + 4 + tail.length := by
          have := congrArg List.length hdrop
          simp [List.length_drop, List.length_append] at this
          omega
        have hile : i ≤ s.length := by omega
        obtain ⟨f, rfl⟩ : ∃ f, fuel = f + 1 := ⟨fuel - 1, by simp at hfuel; omega⟩
        simp only [parseDurAux]
        rw [if_pos (by simp at hlim; omega), if_neg (by omega)]
        have hchunk : (s.drop i).take 2 = [c1, c2] := by rw [hdrop]; rfl
        rw [hchunk]
        rw [if_neg (by
          simp only [List.cons.injEq, and_true]
          rintro ⟨rfl, rfl⟩
          simp at hne)]
        obtain ⟨v1, hv1⟩ := Option.isSome_iff_exists.mp hx1
        simp only [parseHexToInt, hv1]
        have hdrop' : s.drop (i + 2) = rest ++ '0' :: '0' :: tail := by
          have h2 := congrArg (List.drop 2) hdrop
          rw [List.drop_drop] at h2
          simpa [show (2 : Nat) + i = i + 2 from by omega] using h2
        rw [ih rest (by simp at hlen; omega) hrest s limit f (i + 2) tail hdrop' htail
          (by simp at hlim; omega) (by simp at hfuel; omega)]

/-- Top-level form of the escape-truncation error case: for every 8-hex-
character header whose length field declares `len` values, every prefix of
plain one-byte values that keeps the escape inside the declared limit, and
every tail of at most three hex characters, `parseBroadlinkDurations`
errors. -/
theorem parseBroadlinkDurations_escape_truncated
    (hdr pre tail : List Char) (len : Nat)
    (hhdr : hdr.length = 8)
    (hlen : parseHexToInt ((hdr.drop 6).take 2 ++ (hdr.drop 4).take 2) = .ok len)
    (hpre : plainHexPairs pre = true)
    (hreach : pre.length < 2 * len)
    (htail : tail.length ≤ 3) :
    parseBroadlinkDurations (hdr ++ (pre ++ '0' :: '0' :: tail)) =
      .error ("truncated extended duration") := by
  rw [parseBroadlinkDurations]
  rw [if_neg (by simp [List.length_append]; omega)]
  have hdrop6 : ((hdr ++ (pre ++ '0' :: '0' :: tail)).drop 6).take 2 = (hdr.drop 6).take 2 := by
    rw [List.drop_append_of_le_length (by omega),
      List.take_append_of_le_length (by rw [List.length_drop]; omega)]
  have hdrop4 : ((hdr ++ (pre ++ '0' :: '0' :: tail)).drop 4).take 2 = (hdr.drop 4).take 2 := by
    rw [List.drop_append_of_le_length (by omega),
      List.take_append_of_le_length (by rw [List.length_drop]; omega)]
  rw [hdrop6, hdrop4, hlen]
  exact parseDurAux_plain_prefix_truncated pre.length pre (Nat.le_refl _) hpre
    (hdr ++ (pre ++ '0' :: '0' :: tail)) (len * 2 + 8) (len * 2 + 8) 8 tail
    (by rw [show (8 : Nat) = hdr.length from hhdr.symm, List.drop_left]) htail
    (by omega) (by omega)

/-! ### Claim theorems -/

set_option maxRecDepth 100000

/-- Claim C1: the spec requires `decompress(compress b) == b` for every
PackedStream `b`, explicitly including highly repetitive input.  The code
violates this: on the PackedStream of 130 zero TimingValues (260 zero
bytes) `findBestMatch` returns a match of true length 259, whose stored
length `259 - 2 = 257` trips the `length >= 1<<8` panic in
`emitDistanceBlock`, so `compressTuya` aborts and produces no stream at
all — even though 259 is within the documented `TuyaMaxMatchLength = 265`
bound that the panic message itself quotes as the maximum.  (Whenever
`compressTuya` does return a stream the round trip holds; see
`claim_C8`.) -/
theorem claim_C1 : compressTuya (packRawBytes (List.replicate 130 0)) = none := by decide

/-- Claim C2: the spec requires the PackedStream of 300 repetitions of
`0x90 0x01` (300 TimingValues `0x0190 = 400`, 600 bytes) to compress to
under 20 bytes.  Instead `compressTuya` panics: at `pos = 2` the best
match has true length 265, its stored length `263` trips the
`length >= 1<<8` guard in `emitDistanceBlock`, and no stream is
produced. -/
theorem claim_C2 : compressTuya (packRawBytes (List.replicate 300 400)) = none := by decide

/-- Claim C3: the emission bounds do hold for every token that is written,
but the claim that the panic branches of `emitDistanceBlock` are
unreachable from `compressTuya` is false: on 262 repetitions of byte 7 the
search returns at `pos = 1` a match of true length 261 — inside the
documented bound `TuyaMaxMatchLength = 265` — whose stored length
`259 ≥ 256` fires the extended-length panic, so `compressTuya` aborts. -/
theorem claim_C3 :
    (findBestMatch (List.replicate 262 7) 1).1 = 261 ∧
    (findBestMatch (List.replicate 262 7) 1).1 ≤ TuyaMaxMatchLength ∧
    compressTuya (List.replicate 262 7) = none := by
  refine ⟨by decide, by decide, by decide⟩

/-- Claim C4: `convertToMicroseconds` maps each raw duration `r` through
`ceil(r / (269/8192))` computed exactly (conjunct 3: the embedded integer
division equals the rational ceiling), keeps exactly the values below
65535 in their original order with no other change (conjunct 1: the output
is the filtered image of the input list), and `convert(0) = 0`
(conjunct 2).  Determinism is immediate since the embedding is a pure
function of its argument. -/
theorem claim_C4 :
    (∀ durations : List Nat, convertToMicroseconds durations =
      (durations.map fun d => (8192 * d + 268) / 269).filter fun m => m < 65535) ∧
    convertToMicroseconds [0] = [0] ∧
    (∀ r : Nat, (((8192 * r + 268) / 269 : Nat) : ℤ) = ⌈(r : ℚ) / (269 / 8192)⌉) :=
  ⟨convertToMicroseconds_filter_map, rfl, convCeil_exact⟩

/-- Claim C5: `findBestMatch` returns the longest run length over the
window distances `1 .. min pos 8192`, capped at
`min 265 (data.length - pos)` (conjuncts 1 and 2); when a positive match
exists the returned distance is a valid window distance realising that
length, and every smaller distance realises a strictly shorter run, i.e.
the smallest distance wins ties (conjunct 3).  `compressTuya`'s loop emits
a match token exactly when the best length is at least 3, restarting after
the match, and otherwise grows the pending literal run by one byte
(conjunct 4). -/
theorem claim_C5 (data : List Nat) (pos : Nat) :
    ((findBestMatch data pos).1 ≤ min TuyaMaxMatchLength (data.length - pos)) ∧
    (∀ d, 1 ≤ d → d ≤ min pos TuyaWindowSize →
      matchLen data (pos - d) pos (min TuyaMaxMatchLength (data.length - pos)) ≤
        (findBestMatch data pos).1) ∧
    (0 < (findBestMatch data pos).1 →
      1 ≤ (findBestMatch data pos).2 ∧ (findBestMatch data pos).2 ≤ min pos TuyaWindowSize ∧
      (findBestMatch data pos).1 =
        matchLen data (pos - (findBestMatch data pos).2) pos
          (min TuyaMaxMatchLength (data.length - pos)) ∧
      (∀ d, 1 ≤ d → d < (findBestMatch data pos).2 →
        matchLen data (pos - d) pos (min TuyaMaxMatchLength (data.length - pos)) <
          (findBestMatch data pos).1)) ∧
    (∀ fuel blockStart, pos < data.length →
      (3 ≤ (findBestMatch data pos).1 →
        compressAux data (fuel + 1) blockStart pos =
          match emitLiteralBlocks ((data.drop blockStart).take (pos - blockStart)) with
          | none => none
          | some lits =>
            match emitDistanceBlock (findBestMatch data pos).1 (findBestMatch data pos).2 with
            | none => none
            | some tok =>
              match compressAux data fuel (pos + (findBestMatch data pos).1)
                  (pos + (findBestMatch data pos).1) with
              | none => none
              | some rest => some (lits ++ tok ++ rest)) ∧
      ((findBestMatch data pos).1 < 3 →
        compressAux data (fuel + 1) blockStart pos = compressAux data fuel blockStart (pos + 1))) := by
  refine ⟨findBestMatch_fst_le data pos, ?_, ?_, ?_⟩
  · intro d h1 h2
    exact findBestMatchAux_ge data pos _ _ d h1 h2
  · intro h
    obtain ⟨ha, hb, hcc⟩ := findBestMatch_spec data pos h
    exact ⟨ha, hb, hcc, fun d hd1 hd2 => findBestMatchAux_least data pos _ _ d hd1 hd2⟩
  · intro fuel blockStart hlt
    constructor
    · intro h3
      simp only [compressAux]
      rw [if_pos hlt, if_pos h3]
    · intro h3
      simp only [compressAux]
      rw [if_pos hlt, if_neg (by omega)]

/-- Witness for C5: on `[1, 1, 1, 1]` at position 2 the candidate at
distance 1 is no longer than the best match the search returned. -/
theorem claim_C5_witness :
    matchLen [1, 1, 1, 1] (2 - 1) 2 (min TuyaMaxMatchLength (([1, 1, 1, 1] : List Nat).length - 2))
      ≤ (findBestMatch [1, 1, 1, 1] 2).1 :=
  (claim_C5 [1, 1, 1, 1] 2).2.1 1 (by decide) (by decide)

/-- Claim C6: on the payload with header-declared length 4 followed by
`0x0A 0x14 0x00 0x01 0x2C`, parsing yields exactly `0x0A, 0x14, 0x012C`
(the `0x00` escape reads the next two bytes big-endian and advances the
cursor by three bytes), and appending further bytes changes nothing —
exactly 5 payload bytes are consumed. -/
theorem claim_C6 :
    parseBroadlinkDurations (("260004000a1400012c").toList) = .ok [10, 20, 300] ∧
    parseBroadlinkDurations (("260004000a1400012c").toList ++ ("ffff").toList) =
      .ok [10, 20, 300] :=
  ⟨rfl, rfl⟩

/-- Counterexample for C7: a payload whose header declares length 4 but
that carries a single payload byte `0x0A` is parsed WITHOUT error — the
loop `break`s when fewer than two hex characters remain and returns the
truncated list `[0x0A]`, contradicting the claim that a declared length
inconsistent with the available data yields an error. -/
theorem claim_C7_counterexample :
    parseBroadlinkDurations (("260004000a").toList) = .ok [10] := rfl

/-- Claim C7 as amended: `parseBroadlinkDurations` errors on every input
shorter than the 4-byte header (conjunct 1), and on every payload in which
the scan reaches, inside the declared limit, an escape marker `0x00` with
fewer than two trailing bytes available — universally over the header, the
prefix of plain one-byte values before the escape, and the short tail
(conjunct 2).  A declared payload length inconsistent with the available
data is, by itself, not an error: whenever fewer than two hex characters
remain at the cursor the loop stops without error and keeps the durations
parsed so far (conjunct 3, universally over scan states), as at the
concrete top-level input of the counterexample (conjunct 4). -/
theorem claim_C7 :
    (∀ s : List Char, s.length < 8 →
      parseBroadlinkDurations s = .error ("invalid Broadlink format: too short")) ∧
    (∀ (hdr pre tail : List Char) (len : Nat), hdr.length = 8 →
      parseHexToInt ((hdr.drop 6).take 2 ++ (hdr.drop 4).take 2) = .ok len →
      plainHexPairs pre = true → pre.length < 2 * len → tail.length ≤ 3 →
      parseBroadlinkDurations (hdr ++ (pre ++ '0' :: '0' :: tail)) =
        .error ("truncated extended duration")) ∧
    (∀ (s : List Char) (limit fuel i : Nat), i < limit → s.length < i + 2 →
      parseDurAux s limit (fuel + 1) i = .ok []) ∧
    parseBroadlinkDurations (("260004000a").toList) = .ok [10] := by
  refine ⟨?_, ?_, ?_, rfl⟩
  · intro s h
    rw [parseBroadlinkDurations, if_pos h]
  · intro hdr pre tail len hhdr hlen hpre hreach htail
    exact parseBroadlinkDurations_escape_truncated hdr pre tail len hhdr hlen hpre hreach htail
  · intro s limit fuel i h1 h2
    exact parseDurAux_break s limit fuel i h1 h2

/-- Witness for C7: the header check fires on a 2-character input, and the
universal escape-truncation case fires on header `26000400` (declared
length 4), plain values `0a 14`, then `00` with a single trailing hex
character. -/
theorem claim_C7_witness :
    parseBroadlinkDurations (("26").toList) = .error ("invalid Broadlink format: too short") ∧
    parseBroadlinkDurations (("26000400").toList ++ (("0a14").toList ++ '0' :: '0' :: ['1'])) =
      .error ("truncated extended duration") :=
  ⟨claim_C7.1 (("26").toList) (by decide),
   claim_C7.2.1 (("26000400").toList) (("0a14").toList) ['1'] 4 (by decide) rfl
     (by decide) (by decide) (by decide)⟩

/-- Claim C8: every compressed stream `compressTuya` actually returns
decompresses — with the spec's Decompressor — back to the exact input, so
neither `TruncatedStream` nor `InvalidBackreference` can occur on the
compressor's own output, and in particular every match token's distance is
within the output produced before it. -/
theorem claim_C8 (data c : List Nat) (hc : compressTuya data = some c) :
    decompressTuya c = Except.ok data :=
  compressTuya_decompress data c hc

/-- Witness for C8: `compressTuya [1, 2, 3] = some [2, 1, 2, 3]` (checked
by evaluation) and the theorem then yields the decompression back to
`[1, 2, 3]`. -/
theorem claim_C8_witness : decompressTuya [2, 1, 2, 3] = Except.ok [1, 2, 3] :=
  claim_C8 [1, 2, 3] [2, 1, 2, 3] (by decide)

/-- Claim C9: the empty PackedStream compresses to the empty
CompressedStream and its base64 encoding is the empty string. -/
theorem claim_C9 : compressTuya [] = some [] ∧ encodeTuyaBase64 [] = ("") :=
  ⟨rfl, rfl⟩

/-- Claim C10: `ConvertBroadlinkToTuya` depends only on the
whitespace-trimmed input (conjunct 1), and on any all-whitespace (in
particular empty) input it fails with the `empty Broadlink code` error
before any decoding (conjunct 2). -/
theorem claim_C10 (s : List Char) :
    ConvertBroadlinkToTuya s = ConvertBroadlinkToTuya (trimSpace s) ∧
    ((∀ c ∈ s, isGoSpace c = true) →
      ConvertBroadlinkToTuya s = .error ("empty Broadlink code")) := by
  constructor
  · simp only [ConvertBroadlinkToTuya, trimSpace_idem]
  · intro h
    simp only [ConvertBroadlinkToTuya, trimSpace_all_space s h]
    rfl

/-- Witness for C10: a single blank is rejected as empty. -/
theorem claim_C10_witness : ConvertBroadlinkToTuya [' '] = .error ("empty Broadlink code") :=
  (claim_C10 [' ']).2 (by decide)
